import Mathlib

/-!
# Verification of the sp-electric-catalog search engine

Shallow embedding of the query-to-ranking pipeline of
`src/backend/server.js` (the search-engine half of the file): text
normalization, intent classification, auto-correction, synonym
expansion, fuzzy matching, multi-field scoring, and the cascading
fallback retrieval, followed by proofs of the specification's
testable properties.

Strings are modelled as `List Char` (`Str`).  JavaScript numbers are
modelled exactly: every multiplication the scorer performs
(`10000 * 0.3`, `5000 * 0.3`, `2500 * 0.3`, `1200 * 0.3`, `600 * 0.3`,
`300 * 0.3`, `100 * 0.3`, and all products with `0.5`, `1.5`, `1.0`,
`3.0`) rounds to the exact rational value in IEEE-754 double
precision, and all sums are integers far below `2^53`, so the IEEE
double arithmetic of the source is exact on every reachable value.
Every reachable score is a multiple of `1/10`, so scores are
represented as integers scaled by 10 (the weight triples
`(3,1,0.3)`, `(1,3,1)`, `(0.5,1.5,3)` become `(30,10,3)`,
`(10,30,10)`, `(5,15,30)` and every additive constant and threshold of
the source is multiplied by 10); all comparisons are invariant under
this scaling.
-/

/-- Strings as lists of characters. -/
abbrev Str := List Char

/-- Coerce a Lean string literal to the `Str` model. -/
def str (s : String) : Str := s.data

/-- Characters the JavaScript regex `\s` matches (the whitespace class
used by `normalize`'s `[^a-z0-9\s\-_.]` and `\s+` steps and by
`String.trim`). -/
def isJsSpace (c : Char) : Bool :=
  let n := c.toNat
  (9 ≤ n && n ≤ 13) || n == 32 || n == 160 || n == 0x1680 ||
    (0x2000 ≤ n && n ≤ 0x200A) || n == 0x2028 || n == 0x2029 ||
    n == 0x202F || n == 0x205F || n == 0x3000 || n == 0xFEFF

/-- Non-space characters of the kept class `[a-z0-9\-_.]`. -/
def cleanNonSp (c : Char) : Bool :=
  (97 ≤ c.toNat && c.toNat ≤ 122) || (48 ≤ c.toNat && c.toNat ≤ 57) ||
    c.toNat == 45 || c.toNat == 95 || c.toNat == 46

/-- Characters kept (not replaced by a space) by the regex
`[^a-z0-9\s\-_.]` replacement step of `normalize`. -/
def isKeep (c : Char) : Bool := cleanNonSp c || isJsSpace c

/-- Characters that can occur in a fully normalized string:
`[a-z0-9\-_.]` or the single plain space. -/
def cleanChar (c : Char) : Bool := cleanNonSp c || c == ' '

/-- Models the character-level effect of `toLowerCase()`, Unicode NFD and
`\p{Diacritic}` removal (the first three steps of `normalize`): ASCII is
covered exactly, Latin-1 letters are folded to their base lowercase
letter, combining diacritical marks are removed, and all other code
points are left unchanged (they are replaced by a space by the following
character-class step, exactly as in the source). -/
def foldChar (c : Char) : List Char :=
  let n := c.toNat
  if 65 ≤ n ∧ n ≤ 90 then [Char.ofNat (n + 32)]
  else if n < 128 then [c]
  else if (0xC0 ≤ n ∧ n ≤ 0xC5) ∨ (0xE0 ≤ n ∧ n ≤ 0xE5) then ['a']
  else if n = 0xC7 ∨ n = 0xE7 then ['c']
  else if (0xC8 ≤ n ∧ n ≤ 0xCB) ∨ (0xE8 ≤ n ∧ n ≤ 0xEB) then ['e']
  else if (0xCC ≤ n ∧ n ≤ 0xCF) ∨ (0xEC ≤ n ∧ n ≤ 0xEF) then ['i']
  else if n = 0xD1 ∨ n = 0xF1 then ['n']
  else if (0xD2 ≤ n ∧ n ≤ 0xD6) ∨ (0xF2 ≤ n ∧ n ≤ 0xF6) then ['o']
  else if (0xD9 ≤ n ∧ n ≤ 0xDC) ∨ (0xF9 ≤ n ∧ n ≤ 0xFC) then ['u']
  else if n = 0xDD ∨ n = 0xFD ∨ n = 0xFF then ['y']
  else if 0x300 ≤ n ∧ n ≤ 0x36F then []
  else [c]

/-- The character-class replacement step: keep `[a-z0-9\s\-_.]`, replace
everything else by a space. -/
def keepOrSpace (c : Char) : Char := if isKeep c then c else ' '

/-- Model of the `\s+` to `" "` collapsing step of `normalize`: every maximal run
of whitespace becomes a single plain space. -/
def collapseWs : List Char → List Char
  | [] => []
  | [c] => if isJsSpace c then [' '] else [c]
  | a :: b :: rest =>
    if isJsSpace a && isJsSpace b then collapseWs (b :: rest)
    else (if isJsSpace a then ' ' else a) :: collapseWs (b :: rest)

/-- Left half of `String.trim`. -/
def trimLeftL (l : List Char) : List Char := l.dropWhile isJsSpace

/-- Right half of `String.trim`. -/
def trimRightL : List Char → List Char
  | [] => []
  | c :: rest =>
    if (trimRightL rest).isEmpty then (if isJsSpace c then [] else [c])
    else c :: trimRightL rest

/-- Model of `normalize(value)` of the source: lowercase + NFD + diacritic
stripping (`foldChar`), replace characters outside `[a-z0-9\s\-_.]` by a
space, collapse whitespace runs to a single space, trim. -/
def normalizeL (l : List Char) : List Char :=
  trimRightL (trimLeftL (collapseWs (((l.map foldChar).flatten).map keepOrSpace)))

/-- No two adjacent whitespace characters. -/
def noSpRuns : List Char → Bool
  | [] => true
  | [_] => true
  | a :: b :: rest => (!(isJsSpace a && isJsSpace b)) && noSpRuns (b :: rest)

/-- The head, if any, is not whitespace. -/
def headNotSp : List Char → Bool
  | [] => true
  | c :: _ => !isJsSpace c

/-- The last element, if any, is not whitespace. -/
def lastNotSp : List Char → Bool
  | [] => true
  | [c] => !isJsSpace c
  | _ :: rest => lastNotSp rest

/-! ## String operations used by the engine -/

/-- JS `String.prototype.startsWith` on the list model: `startsW s p` is
true when `p` is an initial segment of `s`. -/
def startsW : Str → Str → Bool
  | _, [] => true
  | [], _ :: _ => false
  | c :: t, p :: ps => c == p && startsW t ps

/-- JS `String.prototype.includes` on the list model: `hasSub s p` is
true when `p` occurs as a contiguous substring of `s`. -/
def hasSub : Str → Str → Bool
  | [], pat => startsW [] pat
  | c :: t, pat => startsW (c :: t) pat || hasSub t pat

/-- JS `String.prototype.split(" ")`: split at every single space,
keeping empty pieces. -/
def splitSp (l : Str) : List Str :=
  l.foldr
    (fun c acc =>
      if c == ' ' then [] :: acc
      else
        match acc with
        | [] => [[c]]
        | t :: rest => (c :: t) :: rest)
    [[]]

/-- JS `String.prototype.replace(pat, repl)` with a string pattern:
replace the first occurrence only (identity when there is none). -/
def replaceFirst (pat repl : Str) : Str → Str
  | [] => if startsW [] pat then repl else []
  | c :: t =>
    if startsW (c :: t) pat then repl ++ (c :: t).drop pat.length
    else c :: replaceFirst pat repl t

/-- JS `[...new Set(xs)]`: keep the first occurrence of each element, in
insertion order. -/
def dedupFirst : List Str → List Str
  | [] => []
  | a :: rest => a :: (dedupFirst rest).filter (fun b => !(b == a))

/-! ## Fuzzy matching -/

/-- Count of aligned character mismatches (over the length of the
shorter list). -/
def diffCount : Str → Str → Nat
  | [], _ => 0
  | _ :: _, [] => 0
  | a :: as, b :: bs => (if a == b then 0 else 1) + diffCount as bs

/-- The window loop of `fuzzyMatch`: some window of the haystack matches
the pattern with at most one substitution. -/
def fuzzyScan (p : Str) : Str → Bool
  | [] => p.isEmpty
  | c :: t =>
    if (c :: t).length < p.length then false
    else decide (diffCount (c :: t) p ≤ 1) || fuzzyScan p t

/-- Model of `fuzzyMatch(str, pattern)` of the source: substring, or
(for patterns of length at least 3) a window with at most one aligned
mismatch. -/
def fuzzyMatch (s p : Str) : Bool :=
  if hasSub s p then true
  else if p.length < 3 then false
  else fuzzyScan p s

/-! ## Intent classification -/

/-- Query intent labels. -/
inductive Intent
  | CODE
  | PRODUCT
  | CATEGORY
deriving DecidableEq

/-- Model of `classifyIntent(query)` of the source; `\d` is `[0-9]` and
the letter test is `[a-z]`. -/
def classifyIntent (query : Str) : Intent :=
  let normalized := normalizeL query
  let hasNumbers := normalized.any (fun c => 48 ≤ c.toNat && c.toNat ≤ 57)
  let hasLetters := normalized.any (fun c => 97 ≤ c.toNat && c.toNat ≤ 122)
  let isShort := decide (normalized.length ≤ 15)
  let fewWords := decide ((splitSp normalized).length ≤ 2)
  if hasNumbers && hasLetters && isShort && fewWords then .CODE
  else if hasNumbers && !hasLetters then .CODE
  else if !hasNumbers && (splitSp normalized).length == 1 then .CATEGORY
  else .PRODUCT

/-! ## Dictionaries -/

/-- The `SYNONYMS` table of the source, in object-literal order. -/
def SYNONYMS : List (Str × List Str) := [
  (str "interruttore", [str "switch", str "pulsante", str "deviatore"]),
  (str "presa", [str "socket", str "spina"]),
  (str "lampada", [str "lampadina", str "led", str "luce", str "bulbo"]),
  (str "cavo", [str "filo", str "cavetto", str "cable"]),
  (str "scatola", [str "box", str "contenitore"]),
  (str "quadro", [str "centralino", str "pannello"]),
  (str "relè", [str "rele", str "relay"]),
  (str "trasformatore", [str "trafo"]),
  (str "magnetotermico", [str "salvavita", str "differenziale"]),
  (str "btc", [str "bticino"]),
  (str "gewiss", [str "gw"]),
  (str "abb", [str "abb"]),
  (str "inturrettore", [str "interruttore"]),
  (str "interruttorw", [str "interruttore"]),
  (str "lampadins", [str "lampadina"]),
  (str "quadr", [str "quadro"])]

/-- The `AUTO_CORRECTIONS` table of the source, in object-literal
order. -/
def AUTO_CORRECTIONS : List (Str × Str) := [
  (str "inturrettore", str "interruttore"),
  (str "interruttorw", str "interruttore"),
  (str "lampadins", str "lampadina"),
  (str "trasofrmatore", str "trasformatore"),
  (str "magnetotermic", str "magnetotermico"),
  (str "btcino", str "bticino"),
  (str "gewis", str "gewiss")]

/-- Model of `autoCorrect(query)` of the source: every matching
dictionary entry overwrites the working string with
`normalized.replace(error, correction)` (first occurrence only), in
dictionary order. -/
def autoCorrect (query : Str) : Str :=
  let normalized := normalizeL query
  AUTO_CORRECTIONS.foldl
    (fun corrected e =>
      if hasSub normalized e.1 then replaceFirst e.1 e.2 normalized
      else corrected)
    query

/-- Model of `expandWithSynonyms(query)` of the source: the original
query plus, for every table entry whose key occurs in the normalized
query, the variants with the key replaced by each synonym, and for
every synonym occurring in the normalized query, the variant with the
synonym replaced by the key; deduplicated keeping first occurrences. -/
def expandWithSynonyms (query : Str) : List Str :=
  let normalized := normalizeL query
  let expanded := SYNONYMS.foldl
    (fun exp e =>
      (if hasSub normalized e.1 then
        exp ++ e.2.map (fun syn => replaceFirst e.1 syn normalized)
      else exp) ++
        (e.2.filter (fun syn => hasSub normalized syn)).map
          (fun syn => replaceFirst syn e.1 normalized))
    [query]
  dedupFirst expanded

/-! ## Products and scoring -/

/-- Product records; the optional fields default to the empty string via
`|| ""` in the source. -/
structure Product where
  code : Str
  name : Str
  category : Option Str := none
  description : Option Str := none
deriving DecidableEq

/-- Intent-selected weight triple (one row of `intentBoost`), scaled by
10 so that all weights are integers (see the header comment). -/
structure Boost where
  code : ℤ
  name : ℤ
  category : ℤ

/-- The weight table `intentBoost`: `(3,1,0.3)`, `(1,3,1)`,
`(0.5,1.5,3)`, scaled by 10. -/
def intentBoost : Intent → Boost
  | .CODE => ⟨30, 10, 3⟩
  | .PRODUCT => ⟨10, 30, 10⟩
  | .CATEGORY => ⟨5, 15, 30⟩

/-- The multi-token phase (FASE 4) of `scoreProduct`: per-token weighted
bonuses, doubled when every token matched somewhere (the bare `+ 50`
description bonus of the source is `+ 500` in the 10-scaled model). -/
def multiTokenScore (code name category description : Str) (boost : Boost)
    (tokens : List Str) : ℤ :=
  let r := tokens.foldl
    (fun (st : ℤ × Nat) token =>
      if hasSub code token then (st.1 + 300 * boost.code, st.2 + 1)
      else if hasSub name token then (st.1 + 150 * boost.name, st.2 + 1)
      else if hasSub category token then (st.1 + 100 * boost.category, st.2 + 1)
      else if hasSub description token then (st.1 + 500, st.2 + 1)
      else st)
    ((0 : ℤ), (0 : Nat))
  if r.2 = tokens.length then r.1 * 2 else r.1

/-- Model of `scoreProduct(product, query, tokens, intent)` of the
source, in the 10-scaled integer representation (the bare `< 500` test
and `+ 200` bonus of the description fallback become `< 5000` and
`+ 2000`). -/
def scoreProduct (product : Product) (query : Str) (tokens : List Str)
    (intent : Intent) : ℤ :=
  let code := normalizeL product.code
  let name := normalizeL product.name
  let category := normalizeL (product.category.getD [])
  let description := normalizeL (product.description.getD [])
  let boost := intentBoost intent
  if code = query then 10000 * boost.code
  else
    let score : ℤ := 0
    let score := if startsW code query then score + 5000 * boost.code else score
    let score := if hasSub code query then score + 2500 * boost.code else score
    let score := if fuzzyMatch code query then score + 1200 * boost.code else score
    let score := if name = query then score + 3000 * boost.name else score
    let score := if startsW name query then score + 1500 * boost.name else score
    let score := if hasSub name query then score + 800 * boost.name else score
    let score := if fuzzyMatch name query then score + 400 * boost.name else score
    let score := if hasSub category query then score + 600 * boost.category else score
    let score := if 1 < tokens.length then
        score + multiTokenScore code name category description boost tokens
      else score
    let score := if score < 5000 ∧ hasSub description query then score + 2000 else score
    score

/-! ## The fallback cascade -/

/-- Accumulator entries `{product, score}` (score in the 10-scaled
integer representation). -/
abbrev SC := Product × ℤ

/-- The dedup test `results.some(r => r.product.code === product.code)`. -/
def hasCode (acc : List SC) (c : Str) : Bool :=
  acc.any (fun r => r.1.code == c)

/-- The final ordering `results.sort((a, b) => b.score - a.score)`: a
stable descending sort by score (JS `Array.prototype.sort` is stable,
and insertion sort with a total preorder is the stable sort). -/
def sortByScoreDesc (l : List SC) : List SC :=
  l.insertionSort (fun a b => b.2 ≤ a.2)

/-- FASE 1 of `searchWithFallback`: scan codes for one query variant;
`.inl p` models the `return [product]` on exact code equality, `.inr`
the accumulated results (the scan breaks once three results are
accumulated and the current score reaches 2500, i.e. 25000 scaled). -/
def codeScan (q : Str) (tokens : List Str) (intent : Intent) :
    List Product → List SC → Sum Product (List SC)
  | [], acc => .inr acc
  | p :: rest, acc =>
    let code := normalizeL p.code
    if code = q then .inl p
    else if startsW code q || hasSub code q then
      let score := scoreProduct p q tokens intent
      let acc2 := if hasCode acc p.code then acc else acc ++ [(p, score)]
      if 3 ≤ acc2.length ∧ 25000 ≤ score then .inr acc2
      else codeScan q tokens intent rest acc2
    else codeScan q tokens intent rest acc

/-- FASE 2 of `searchWithFallback`: scan names for one query variant,
skipping already-matched products, keeping scores above zero, breaking
at ten accumulated results. -/
def nameScan (q : Str) (tokens : List Str) (intent : Intent) :
    List Product → List SC → List SC
  | [], acc => acc
  | p :: rest, acc =>
    if hasCode acc p.code then nameScan q tokens intent rest acc
    else
      let name := normalizeL p.name
      if hasSub name q || fuzzyMatch name q then
        let score := scoreProduct p q tokens intent
        let acc2 := if 0 < score then acc ++ [(p, score)] else acc
        if 10 ≤ acc2.length then acc2
        else nameScan q tokens intent rest acc2
      else nameScan q tokens intent rest acc

/-- The per-variant loop of `searchWithFallback` (FASE 1 and FASE 2 per
variant): `.inl` models the two early `return`s (exact code hit, or a
first accumulated result scoring at least 5000, i.e. 50000 scaled),
`.inr` the state after all variants (or after five results were
accumulated). -/
def variantLoop (products : List Product) (tokens : List Str)
    (intent : Intent) : List Str → List SC → Sum (List Product) (List SC)
  | [], acc => .inr acc
  | q :: qs, acc =>
    match codeScan q tokens intent products acc with
    | .inl p => .inl [p]
    | .inr acc1 =>
      let strong : Bool :=
        match acc1 with
        | [] => false
        | r :: _ => decide (50000 ≤ r.2)
      if strong then .inl (((sortByScoreDesc acc1).take 1).map (fun r => r.1))
      else
        let acc2 := if acc1.length < 5 then nameScan q tokens intent products acc1 else acc1
        if 5 ≤ acc2.length then .inr acc2
        else variantLoop products tokens intent qs acc2

/-- FASE 3 of `searchWithFallback`: broad multi-token rescan against the
first query variant, threshold 300 (3000 scaled), cap 15. -/
def broadScan (q0 : Str) (tokens : List Str) (intent : Intent) :
    List Product → List SC → List SC
  | [], acc => acc
  | p :: rest, acc =>
    if hasCode acc p.code then broadScan q0 tokens intent rest acc
    else
      let score := scoreProduct p q0 tokens intent
      let acc2 := if 3000 ≤ score then acc ++ [(p, score)] else acc
      if 15 ≤ acc2.length then acc2
      else broadScan q0 tokens intent rest acc2

/-- FASE 4 of `searchWithFallback`: category substring rescan of the
first query variant, cap 10. -/
def catScan (q0 : Str) (tokens : List Str) (intent : Intent) :
    List Product → List SC → List SC
  | [], acc => acc
  | p :: rest, acc =>
    if hasCode acc p.code then catScan q0 tokens intent rest acc
    else
      let category := normalizeL (p.category.getD [])
      let acc2 :=
        if hasSub category q0 then
          let score := scoreProduct p q0 tokens intent
          if 0 < score then acc ++ [(p, score)] else acc
        else acc
      if 10 ≤ acc2.length then acc2
      else catScan q0 tokens intent rest acc2

/-- FASE 5 of `searchWithFallback`: description substring rescan of the
first query variant, cap 10. -/
def descScan (q0 : Str) (tokens : List Str) (intent : Intent) :
    List Product → List SC → List SC
  | [], acc => acc
  | p :: rest, acc =>
    if hasCode acc p.code then descScan q0 tokens intent rest acc
    else
      let description := normalizeL (p.description.getD [])
      let acc2 :=
        if hasSub description q0 then
          let score := scoreProduct p q0 tokens intent
          if 0 < score then acc ++ [(p, score)] else acc
        else acc
      if 10 ≤ acc2.length then acc2
      else descScan q0 tokens intent rest acc2

/-- Inner product loop of FASE 6: collect up to five unmatched products
containing the token in code, name or category, at fixed score 100
(1000 scaled). -/
def tokenInner (t : Str) : List Product → List SC → List SC
  | [], acc => acc
  | p :: rest, acc =>
    if hasCode acc p.code then tokenInner t rest acc
    else
      let code := normalizeL p.code
      let name := normalizeL p.name
      let category := normalizeL (p.category.getD [])
      let acc2 :=
        if hasSub code t || hasSub name t || hasSub category t then
          acc ++ [(p, (1000 : ℤ))]
        else acc
      if 5 ≤ acc2.length then acc2
      else tokenInner t rest acc2

/-- Outer token loop of FASE 6: skip tokens shorter than three
characters; stop at the first token that yields any result. -/
def tokenScan (products : List Product) : List Str → List SC → List SC
  | [], acc => acc
  | t :: ts, acc =>
    if t.length < 3 then tokenScan products ts acc
    else
      let acc2 := tokenInner t products acc
      if 0 < acc2.length then acc2
      else tokenScan products ts acc2

/-- Model of `searchWithFallback(products, queries, intent)` of the
source: the variant loop (FASE 1–2 with its two early returns), then
the four widening fallback phases, then dedupe/sort/cap.  (The source
reads `queries[0]`; the pipeline always passes a nonempty variant
list.) -/
def searchWithFallback (products : List Product) (queries : List Str)
    (intent : Intent) : List Product :=
  let q0 := queries.headD []
  let tokens := (splitSp q0).filter (fun t => !t.isEmpty)
  match variantLoop products tokens intent queries [] with
  | .inl out => out
  | .inr r2 =>
    let r3 := if r2.length < 5 ∧ 1 < tokens.length then
        broadScan q0 tokens intent products r2
      else r2
    let r4 := if r3.length < 3 then catScan q0 tokens intent products r3 else r3
    let r5 := if r4.length < 2 ∧ 4 < q0.length then
        descScan q0 tokens intent products r4
      else r4
    let r6 := if r5.length = 0 ∧ 1 < tokens.length then
        tokenScan products tokens r5
      else r5
    ((sortByScoreDesc r6).take 5).map (fun r => r.1)

/-- Model of `searchProducts(products, rawQuery)` of the source: the
pipeline orchestrator. -/
def searchProducts (products : List Product) (rawQuery : Str) :
    List Product :=
  let query := normalizeL rawQuery
  if query = [] then []
  else
    let intent := classifyIntent query
    let correctedQuery := autoCorrect query
    let expandedQueries := expandWithSynonyms correctedQuery
    searchWithFallback products expandedQueries intent

/-! ## Specification-side definitions

The following definitions are written from the specification's (and the
claims') wording, to be compared with the source-derived definitions
above. -/

/-- Spec wording of the bounded fuzzy window check: `pattern` matches
some equal-length window of the haystack with at most one aligned
character mismatch. -/
def windowMatch (s p : Str) : Bool :=
  (List.range (s.length + 1 - p.length)).any
    (fun i => decide (diffCount (s.drop i) p ≤ 1))

/-- Spec wording of the intent rules (section 4.2), evaluated in order
with first match winning, on an already-normalized query. -/
def classifyIntentSpec (q : Str) : Intent :=
  let hasD := q.any (fun c => 48 ≤ c.toNat && c.toNat ≤ 57)
  let hasL := q.any (fun c => 97 ≤ c.toNat && c.toNat ≤ 122)
  let words := (splitSp q).length
  if hasD && hasL && decide (q.length ≤ 15) && decide (words ≤ 2) then .CODE
  else if hasD && !hasL then .CODE
  else if !hasD && words == 1 then .CATEGORY
  else .PRODUCT

/-- Fuel-indexed replace-all helper (the fuel is the haystack length;
every step consumes at least one character for a nonempty pattern). -/
def replaceAllGo (pat repl : Str) : Nat → Str → Str
  | 0, s => s
  | _ + 1, [] => []
  | fuel + 1, c :: t =>
    if pat.isEmpty then c :: t
    else if startsW (c :: t) pat then
      repl ++ replaceAllGo pat repl fuel ((c :: t).drop pat.length)
    else c :: replaceAllGo pat repl fuel t

/-- Replace every (left-to-right, non-overlapping) occurrence of a
nonempty pattern. -/
def replaceAllStr (pat repl s : Str) : Str := replaceAllGo pat repl s.length s

/-- Claim C4's wording of the auto-corrector: like `autoCorrect`, but
each matching dictionary entry replaces all occurrences of the error
key in the normalized query (the dictionary keys are all nonempty). -/
def autoCorrectAllOcc (query : Str) : Str :=
  let normalized := normalizeL query
  AUTO_CORRECTIONS.foldl
    (fun corrected e =>
      if hasSub normalized e.1 then replaceAllStr e.1 e.2 normalized
      else corrected)
    query

section NormalizeLemmas

theorem trimRightL_cons_def (c : Char) (t : List Char) :
    trimRightL (c :: t) =
      if (trimRightL t).isEmpty then (if isJsSpace c then [] else [c])
      else c :: trimRightL t := rfl

theorem cleanChar_space {c : Char} (h : cleanChar c = true)
    (hs : isJsSpace c = true) : c = ' ' := by
  simp only [cleanChar, Bool.or_eq_true, beq_iff_eq] at h
  rcases h with h | rfl
  · exfalso
    simp only [cleanNonSp, Bool.or_eq_true, Bool.and_eq_true,
      decide_eq_true_eq, beq_iff_eq] at h
    simp only [isJsSpace, Bool.or_eq_true, Bool.and_eq_true,
      decide_eq_true_eq, beq_iff_eq] at hs
    omega
  · rfl

theorem cleanChar_foldChar {c : Char} (h : cleanChar c = true) :
    foldChar c = [c] := by
  have hn : c.toNat < 128 ∧ ¬(65 ≤ c.toNat ∧ c.toNat ≤ 90) := by
    simp only [cleanChar, Bool.or_eq_true, beq_iff_eq] at h
    rcases h with h | rfl
    · simp only [cleanNonSp, Bool.or_eq_true, Bool.and_eq_true,
        decide_eq_true_eq, beq_iff_eq] at h
      omega
    · exact ⟨by decide, by decide⟩
  simp only [foldChar]
  rw [if_neg hn.2, if_pos hn.1]

theorem cleanChar_keepOrSpace {c : Char} (h : cleanChar c = true) :
    keepOrSpace c = c := by
  have hk : isKeep c = true := by
    simp only [cleanChar, Bool.or_eq_true, beq_iff_eq] at h
    simp only [isKeep, Bool.or_eq_true]
    rcases h with h | rfl
    · exact Or.inl h
    · exact Or.inr (by decide)
  simp [keepOrSpace, hk]

/-- The function `collapseWs` is the identity on lists with no whitespace runs where
every whitespace character is the plain space. -/
theorem collapseWs_eq_self : ∀ l : List Char,
    (∀ c ∈ l, isJsSpace c = true → c = ' ') → noSpRuns l = true →
    collapseWs l = l
  | [], _, _ => rfl
  | [c], hc, _ => by
    by_cases hs : isJsSpace c = true
    · have := hc c (by simp) hs
      subst this
      simp [collapseWs, hs]
    · simp [collapseWs, hs]
  | a :: b :: rest, hc, hr => by
    have hr' : noSpRuns (b :: rest) = true := by
      simp only [noSpRuns, Bool.and_eq_true] at hr
      exact hr.2
    have hnot : (isJsSpace a && isJsSpace b) = false := by
      simp only [noSpRuns, Bool.and_eq_true, Bool.not_eq_true'] at hr
      exact hr.1
    have ih := collapseWs_eq_self (b :: rest)
      (fun c hm hs => hc c (by simp [hm]) hs) hr'
    simp only [collapseWs]
    rw [if_neg (by simp [hnot])]
    by_cases hs : isJsSpace a = true
    · have := hc a (by simp) hs
      subst this
      simp [ih]
    · simp [hs, ih]

theorem trimLeftL_eq_self {l : List Char} (h : headNotSp l = true) :
    trimLeftL l = l := by
  cases l with
  | nil => rfl
  | cons c t =>
    simp only [headNotSp, Bool.not_eq_true'] at h
    simp [trimLeftL, List.dropWhile, h]

theorem trimRightL_eq_self : ∀ l : List Char, lastNotSp l = true →
    trimRightL l = l
  | [], _ => rfl
  | [c], h => by
    simp only [lastNotSp, Bool.not_eq_true'] at h
    simp [trimRightL, h]
  | a :: b :: rest, h => by
    have h' : lastNotSp (b :: rest) = true := h
    have ih := trimRightL_eq_self (b :: rest) h'
    rw [trimRightL_cons_def, ih]
    simp

/-- Members of `collapseWs l` are the space or non-space members of
`l`. -/
theorem mem_collapseWs : ∀ l : List Char, ∀ c ∈ collapseWs l,
    c = ' ' ∨ (c ∈ l ∧ isJsSpace c = false)
  | [], c, hm => by simp [collapseWs] at hm
  | [a], c, hm => by
    simp only [collapseWs] at hm
    by_cases hs : isJsSpace a = true
    · rw [if_pos hs] at hm
      simp only [List.mem_singleton] at hm
      exact Or.inl hm
    · rw [if_neg hs] at hm
      simp only [List.mem_singleton] at hm
      subst hm
      exact Or.inr ⟨by simp, by simpa using hs⟩
  | a :: b :: rest, c, hm => by
    simp only [collapseWs] at hm
    by_cases hab : (isJsSpace a && isJsSpace b) = true
    · rw [if_pos hab] at hm
      rcases mem_collapseWs (b :: rest) c hm with h | ⟨h1, h2⟩
      · exact Or.inl h
      · exact Or.inr ⟨by simp [h1], h2⟩
    · rw [if_neg hab] at hm
      rcases List.mem_cons.mp hm with rfl | hm'
      · by_cases hs : isJsSpace a = true
        · rw [if_pos hs]
          exact Or.inl rfl
        · rw [if_neg hs]
          exact Or.inr ⟨by simp, by simpa using hs⟩
      · rcases mem_collapseWs (b :: rest) c hm' with h | ⟨h1, h2⟩
        · exact Or.inl h
        · exact Or.inr ⟨by simp [h1], h2⟩

theorem mem_trimRightL : ∀ l : List Char, ∀ c ∈ trimRightL l, c ∈ l
  | [], c, hm => by simp [trimRightL] at hm
  | a :: rest, c, hm => by
    rw [trimRightL_cons_def] at hm
    by_cases he : (trimRightL rest).isEmpty = true
    · rw [if_pos he] at hm
      by_cases hs : isJsSpace a = true
      · rw [if_pos hs] at hm
        cases hm
      · rw [if_neg hs] at hm
        simp only [List.mem_singleton] at hm
        simp [hm]
    · rw [if_neg he] at hm
      rcases List.mem_cons.mp hm with rfl | hm'
      · simp
      · exact List.mem_cons_of_mem _ (mem_trimRightL rest c hm')

theorem mem_trimLeftL {l : List Char} {c : Char} (h : c ∈ trimLeftL l) :
    c ∈ l := by
  induction l with
  | nil => simp [trimLeftL] at h
  | cons a t ih =>
    simp only [trimLeftL, List.dropWhile] at h
    by_cases hs : isJsSpace a = true
    · simp only [hs] at h
      exact List.mem_cons_of_mem _ (ih h)
    · simp only [hs] at h
      simpa using h

/-- Every member of a normalized string is a clean character. -/
theorem mem_normalizeL_clean {l : List Char} {c : Char}
    (h : c ∈ normalizeL l) : cleanChar c = true := by
  have h1 := mem_trimRightL _ c h
  have h2 := mem_trimLeftL h1
  rcases mem_collapseWs _ c h2 with rfl | ⟨h3, h4⟩
  · decide
  · rcases List.mem_map.mp h3 with ⟨a, _, rfl⟩
    by_cases hk : isKeep a = true
    · simp only [keepOrSpace, if_pos hk] at h4 ⊢
      simp only [isKeep, Bool.or_eq_true] at hk
      rcases hk with hk' | hk'
      · simp [cleanChar, hk']
      · rw [hk'] at h4
        cases h4
    · simp only [keepOrSpace, if_neg hk] at h4
      exact absurd h4 (by decide)

theorem noSpRuns_tail {a : Char} {l : List Char}
    (h : noSpRuns (a :: l) = true) : noSpRuns l = true := by
  cases l with
  | nil => rfl
  | cons b t =>
    simp only [noSpRuns, Bool.and_eq_true] at h
    exact h.2

/-- Applying `collapseWs` to a non-space-headed list keeps that head. -/
theorem collapseWs_cons_not_sp {b : Char} (rest : List Char)
    (hb : isJsSpace b = false) :
    ∃ t, collapseWs (b :: rest) = b :: t := by
  cases rest with
  | nil => exact ⟨[], by simp [collapseWs, hb]⟩
  | cons x xs =>
    refine ⟨collapseWs (x :: xs), ?_⟩
    simp [collapseWs, hb]

theorem noSpRuns_collapseWs : ∀ l : List Char,
    noSpRuns (collapseWs l) = true
  | [] => rfl
  | [c] => by
    by_cases hs : isJsSpace c = true <;> simp [collapseWs, hs, noSpRuns]
  | a :: b :: rest => by
    have ih := noSpRuns_collapseWs (b :: rest)
    by_cases hab : (isJsSpace a && isJsSpace b) = true
    · simp only [collapseWs]
      rw [if_pos hab]
      exact ih
    · simp only [collapseWs]
      rw [if_neg hab]
      by_cases hsa : isJsSpace a = true
      · have hsb : isJsSpace b = false := by
          rcases Bool.and_eq_false_iff.mp (by simpa using hab) with h | h
          · rw [hsa] at h
            cases h
          · exact h
        rcases collapseWs_cons_not_sp rest hsb with ⟨t, ht⟩
        rw [if_pos hsa, ht]
        rw [ht] at ih
        simp only [noSpRuns, Bool.and_eq_true]
        exact ⟨by simp [hsb], ih⟩
      · cases hc : collapseWs (b :: rest) with
        | nil => simp [hsa, noSpRuns]
        | cons x xs =>
          rw [hc] at ih
          rw [if_neg hsa]
          simp only [noSpRuns, Bool.and_eq_true]
          refine ⟨by simp [hsa], ih⟩

theorem noSpRuns_dropWhile {l : List Char} (h : noSpRuns l = true) :
    noSpRuns (l.dropWhile isJsSpace) = true := by
  induction l with
  | nil => rfl
  | cons a t ih =>
    by_cases hs : isJsSpace a = true
    · simp only [List.dropWhile, hs]
      exact ih (noSpRuns_tail h)
    · simpa [List.dropWhile, hs] using h

/-- Right trimming keeps the head of a nonempty result. -/
theorem trimRightL_cons (c : Char) (t : List Char) :
    trimRightL (c :: t) = [] ∨ ∃ r, trimRightL (c :: t) = c :: r := by
  rw [trimRightL_cons_def]
  by_cases he : (trimRightL t).isEmpty = true
  · rw [if_pos he]
    by_cases hs : isJsSpace c = true
    · rw [if_pos hs]
      exact Or.inl rfl
    · rw [if_neg hs]
      exact Or.inr ⟨[], rfl⟩
  · rw [if_neg he]
    exact Or.inr ⟨trimRightL t, rfl⟩

theorem noSpRuns_trimRightL : ∀ l : List Char, noSpRuns l = true →
    noSpRuns (trimRightL l) = true
  | [], _ => rfl
  | c :: t, h => by
    have ih := noSpRuns_trimRightL t (noSpRuns_tail h)
    rw [trimRightL_cons_def]
    by_cases he : (trimRightL t).isEmpty = true
    · rw [if_pos he]
      by_cases hs : isJsSpace c = true
      · rw [if_pos hs]
        rfl
      · rw [if_neg hs]
        rfl
    · rw [if_neg he]
      cases t with
      | nil => simp [trimRightL] at he
      | cons b t' =>
        rcases trimRightL_cons b t' with he' | ⟨r, he'⟩
        · rw [he'] at he
          simp at he
        · rw [he'] at ih ⊢
          simp only [noSpRuns, Bool.and_eq_true] at h ⊢
          exact ⟨h.1, ih⟩

theorem headNotSp_dropWhile (l : List Char) :
    headNotSp (l.dropWhile isJsSpace) = true := by
  induction l with
  | nil => rfl
  | cons a t ih =>
    by_cases hs : isJsSpace a = true
    · simpa [List.dropWhile, hs] using ih
    · simp [List.dropWhile, hs, headNotSp]

theorem headNotSp_trimRightL : ∀ l : List Char, headNotSp l = true →
    headNotSp (trimRightL l) = true
  | [], _ => rfl
  | c :: t, h => by
    rcases trimRightL_cons c t with he | ⟨r, he⟩
    · simp [he, headNotSp]
    · rw [he]
      simpa [headNotSp] using h

theorem lastNotSp_trimRightL : ∀ l : List Char,
    lastNotSp (trimRightL l) = true
  | [] => rfl
  | c :: t => by
    have ih := lastNotSp_trimRightL t
    rw [trimRightL_cons_def]
    by_cases he : (trimRightL t).isEmpty = true
    · rw [if_pos he]
      by_cases hs : isJsSpace c = true
      · rw [if_pos hs]
        rfl
      · rw [if_neg hs]
        simpa [lastNotSp] using hs
    · rw [if_neg he]
      cases ht : trimRightL t with
      | nil => rw [ht] at he; simp at he
      | cons x xs =>
        rw [ht] at ih
        cases xs with
        | nil => simpa [lastNotSp] using ih
        | cons y ys => simpa [lastNotSp] using ih

/-- Structural facts about the output of `normalizeL`. -/
theorem normalizeL_struct (l : List Char) :
    noSpRuns (normalizeL l) = true ∧ headNotSp (normalizeL l) = true ∧
      lastNotSp (normalizeL l) = true := by
  refine ⟨?_, ?_, ?_⟩
  · exact noSpRuns_trimRightL _ (noSpRuns_dropWhile (noSpRuns_collapseWs _))
  · exact headNotSp_trimRightL _ (headNotSp_dropWhile _)
  · exact lastNotSp_trimRightL _

theorem flatten_map_eq_self {l : List Char} {f : Char → List Char}
    (h : ∀ c ∈ l, f c = [c]) : (l.map f).flatten = l := by
  induction l with
  | nil => rfl
  | cons a t ih =>
    rw [List.map_cons, List.flatten_cons, h a (by simp),
      ih (fun c hc => h c (by simp [hc]))]
    rfl

theorem map_eq_self {l : List Char} {f : Char → Char}
    (h : ∀ c ∈ l, f c = c) : l.map f = l := by
  induction l with
  | nil => rfl
  | cons a t ih =>
    rw [List.map_cons, h a (by simp), ih (fun c hc => h c (by simp [hc]))]

/-- Core of idempotence: a normalized string is untouched by every stage
of the pipeline. -/
theorem normalizeL_idem (l : List Char) :
    normalizeL (normalizeL l) = normalizeL l := by
  set m := normalizeL l with hm
  have hclean : ∀ c ∈ m, cleanChar c = true := fun c hc =>
    mem_normalizeL_clean hc
  obtain ⟨hruns, hhead, hlast⟩ := normalizeL_struct l
  rw [← hm] at hruns hhead hlast
  have h1 : (m.map foldChar).flatten = m :=
    flatten_map_eq_self (fun c hc => cleanChar_foldChar (hclean c hc))
  have h2 : m.map keepOrSpace = m :=
    map_eq_self (fun c hc => cleanChar_keepOrSpace (hclean c hc))
  have h3 : collapseWs m = m :=
    collapseWs_eq_self m
      (fun c hc hs => cleanChar_space (hclean c hc) hs) hruns
  have h4 : trimLeftL m = m := trimLeftL_eq_self hhead
  have h5 : trimRightL m = m := trimRightL_eq_self m hlast
  show trimRightL (trimLeftL (collapseWs ((m.map foldChar).flatten.map keepOrSpace))) = m
  rw [h1, h2, h3, h4, h5]

end NormalizeLemmas

/-- C6: for every string `x`, `normalize(normalize(x)) == normalize(x)`
— the normalizer is idempotent. -/
theorem normalize_idempotent (x : Str) :
    normalizeL (normalizeL x) = normalizeL x :=
  normalizeL_idem x

/-! ## C9: empty and whitespace-only queries -/

/-- C9: for every catalog, `searchProducts` applied to the empty string
and to the whitespace-only string `"   "` returns the empty list (the
normalized query is empty, so the guard returns `[]`). -/
theorem searchProducts_empty_query (products : List Product) :
    searchProducts products (str "") = [] ∧
      searchProducts products (str "   ") = [] := by
  have h1 : normalizeL (str "") = [] := by decide
  have h2 : normalizeL (str "   ") = [] := by decide
  constructor
  · simp [searchProducts, h1]
  · simp [searchProducts, h2]

/-! ## C3: totality and the empty catalog -/

theorem tokenScan_nil_products : ∀ (ts : List Str) (acc : List SC),
    tokenScan [] ts acc = acc
  | [], _ => rfl
  | t :: ts, acc => by
    have ih := tokenScan_nil_products ts acc
    by_cases h : t.length < 3
    · simpa [tokenScan, h] using ih
    · by_cases h2 : 0 < acc.length
      · simp [tokenScan, h, tokenInner, h2]
      · simpa [tokenScan, h, tokenInner, h2] using ih

theorem variantLoop_nil_products (tokens : List Str) (intent : Intent) :
    ∀ qs : List Str, variantLoop [] tokens intent qs [] = .inr []
  | [] => rfl
  | q :: qs => by
    have ih := variantLoop_nil_products tokens intent qs
    simpa [variantLoop, codeScan, nameScan] using ih

theorem searchWithFallback_nil_products (queries : List Str)
    (intent : Intent) : searchWithFallback [] queries intent = [] := by
  simp only [searchWithFallback, variantLoop_nil_products]
  simp [broadScan, catScan, descScan, tokenScan_nil_products,
    sortByScoreDesc, List.insertionSort]

/-- C3: the embedding defines the whole pipeline as total functions on
arbitrary queries and arbitrary products (optional fields included), so
the core never fails; in particular an empty catalog yields the empty
result list for every query. -/
theorem searchProducts_empty_catalog (raw : Str) :
    searchProducts [] raw = [] := by
  by_cases h : normalizeL raw = []
  · simp [searchProducts, h]
  · simp [searchProducts, h, searchWithFallback_nil_products]

/-! ## C8: bidirectional synonym expansion -/

/-- C8: with the catalog `[{code:"SW-100", name:"interruttore 10A"}]`
and the built-in synonym entry `interruttore → switch`, the query
`"switch 10a"` returns the product `SW-100` among its results (the
synonym is applied from synonym back to canonical key). -/
theorem searchProducts_synonym_bidirectional :
    (⟨str "SW-100", str "interruttore 10A", none, none⟩ : Product) ∈
      searchProducts [⟨str "SW-100", str "interruttore 10A", none, none⟩]
        (str "switch 10a") := by decide

/-! ## C5: the bounded fuzzy matcher -/

theorem fuzzyScan_eq_windowMatch (p : Str) :
    ∀ s : Str, fuzzyScan p s = windowMatch s p
  | [] => by
    cases p with
    | nil => rfl
    | cons q qs =>
      simp [fuzzyScan, windowMatch, List.isEmpty, Nat.succ_sub_succ]
  | c :: t => by
    have ih := fuzzyScan_eq_windowMatch p t
    by_cases h : (c :: t).length < p.length
    · have h0 : (c :: t).length + 1 - p.length = 0 :=
        Nat.sub_eq_zero_of_le h
      have lhs : fuzzyScan p (c :: t) = false := by
        simp only [fuzzyScan]
        rw [if_pos h]
      have rhs : windowMatch (c :: t) p = false := by
        simp only [windowMatch]
        rw [h0]
        simp
      rw [lhs, rhs]
    · have h' : p.length ≤ t.length + 1 := by
        rw [List.length_cons] at h
        omega
      have harr : (c :: t).length + 1 - p.length =
          (t.length + 1 - p.length) + 1 := by
        rw [List.length_cons]
        omega
      simp only [fuzzyScan, if_neg h, windowMatch, harr,
        List.range_succ_eq_map, List.any_cons, List.any_map]
      rw [ih]
      simp only [windowMatch, Function.comp_def, Nat.succ_eq_add_one,
        List.drop_succ_cons, List.drop_zero]

/-- C5: `fuzzyMatch(haystack, pattern)` is true exactly when the pattern
is a substring of the haystack or has length at least 3 and some
equal-length window of the haystack differs from it in at most one
aligned character position; `fuzzyMatch("interruttore","interruttote")`
is true (single substitution, not a substring), while a length-2
pattern as in `fuzzyMatch("ab","ab")` is accepted only through the
substring test — its window path is cut off by the length-<3 guard. -/
theorem fuzzyMatch_characterization :
    (∀ s p : Str, fuzzyMatch s p =
      (hasSub s p || (decide (3 ≤ p.length) && windowMatch s p))) ∧
      fuzzyMatch (str "interruttore") (str "interruttote") = true ∧
      hasSub (str "interruttore") (str "interruttote") = false ∧
      fuzzyMatch (str "ab") (str "ab") = true ∧
      (decide (3 ≤ (str "ab").length) && windowMatch (str "ab") (str "ab"))
        = false := by
  refine ⟨fun s p => ?_, by decide, by decide, by decide, by decide⟩
  by_cases h1 : hasSub s p = true
  · simp [fuzzyMatch, h1]
  · rw [Bool.not_eq_true] at h1
    by_cases h2 : p.length < 3
    · have h3 : ¬(3 ≤ p.length) := by omega
      simp [fuzzyMatch, h1, h2, h3]
    · have h3 : 3 ≤ p.length := by omega
      simp [fuzzyMatch, h1, h2, h3, fuzzyScan_eq_windowMatch]

/-! ## C4: the auto-corrector replaces only the first occurrence -/

/-- C4 counterexample: on the query `"gewis gewis"` (already
normalized), the dictionary entry `gewis → gewiss` matches; the source
replaces only the FIRST occurrence, not all occurrences as the claim
states. -/
theorem autoCorrect_cex :
    autoCorrect (str "gewis gewis") = str "gewiss gewis" ∧
      autoCorrectAllOcc (str "gewis gewis") = str "gewiss gewiss" ∧
      autoCorrect (str "gewis gewis") ≠
        autoCorrectAllOcc (str "gewis gewis") :=
  ⟨by decide, by decide, by decide⟩

theorem foldl_corrections_no_match {n : Str} :
    ∀ (L : List (Str × Str)) (acc : Str),
      (∀ e ∈ L, hasSub n e.1 = false) →
      L.foldl (fun corrected e =>
        if hasSub n e.1 then replaceFirst e.1 e.2 n else corrected) acc = acc
  | [], _, _ => rfl
  | e :: L, acc, h => by
    have he := h e (by simp)
    simp only [List.foldl_cons]
    rw [if_neg (by simp [he])]
    exact foldl_corrections_no_match L acc (fun x hx => h x (by simp [hx]))

/-- C4 amended: when the dictionary splits as `L1 ++ (k, c) :: L2` with
`k` occurring in the normalized query and no later entry matching, the
auto-corrector returns the normalized query with only the FIRST
occurrence of `k` replaced by `c` (each match overwrites the working
string, so the last matching key in dictionary order wins, and earlier
corrections are discarded). -/
theorem autoCorrect_last_match_first_occ (q k c : Str)
    (L1 L2 : List (Str × Str))
    (hdict : AUTO_CORRECTIONS = L1 ++ (k, c) :: L2)
    (hk : hasSub (normalizeL q) k = true)
    (hL2 : ∀ e ∈ L2, hasSub (normalizeL q) e.1 = false) :
    autoCorrect q = replaceFirst k c (normalizeL q) := by
  simp only [autoCorrect]
  rw [hdict, List.foldl_append, List.foldl_cons]
  simp only [hk, if_true]
  exact foldl_corrections_no_match L2 _ hL2

/-- C4 amended, witnessed at the concrete query `"gewis a"`: the last
(and only) matching key `gewis` fires, replacing its first
occurrence. -/
theorem autoCorrect_last_match_first_occ_witness :
    autoCorrect (str "gewis a") =
      replaceFirst (str "gewis") (str "gewiss") (normalizeL (str "gewis a")) :=
  autoCorrect_last_match_first_occ (str "gewis a") (str "gewis")
    (str "gewiss")
    [(str "inturrettore", str "interruttore"),
     (str "interruttorw", str "interruttore"),
     (str "lampadins", str "lampadina"),
     (str "trasofrmatore", str "trasformatore"),
     (str "magnetotermic", str "magnetotermico"),
     (str "btcino", str "bticino")] []
    (by decide) (by decide) (by intro e he; cases he)

/-! ## C7: the intent rules -/

/-- C7: on an already-normalized query, `classifyIntent` evaluates
exactly the four specification rules in order, first match winning
(token count is the length of `split(" ")`, which on a normalized query
is the whitespace-separated token count, the empty query counting as a
single empty piece). -/
theorem classifyIntent_rules (q : Str) (hq : normalizeL q = q) :
    classifyIntent q = classifyIntentSpec q := by
  simp only [classifyIntent, classifyIntentSpec, hq]

/-- C7 witness at the normalized query `"ab 12"`. -/
theorem classifyIntent_rules_witness :
    normalizeL (str "ab 12") = str "ab 12" ∧
      classifyIntent (str "ab 12") = classifyIntentSpec (str "ab 12") :=
  ⟨by decide, classifyIntent_rules (str "ab 12") (by decide)⟩

/-! ## C1: the exact-code short-circuit -/

/-- C1 counterexample: the catalog contains `AB1`, whose normalized code
equals the normalized query `"ab1"`, but the phase-1 scan accumulates
three strong code matches first, breaks, and the `results[0].score >=
5000` early return yields `[AB12]` — not `[AB1]`: an exact code match
is not authoritative regardless of the other products' scores. -/
theorem searchProducts_exact_code_cex :
    normalizeL (str "AB1") = normalizeL (str "ab1") ∧
      (⟨str "AB1", [], none, none⟩ : Product) ∈
        ([⟨str "AB12", [], none, none⟩, ⟨str "AB13", [], none, none⟩,
          ⟨str "AB14", [], none, none⟩, ⟨str "AB1", [], none, none⟩] :
          List Product) ∧
      searchProducts
        [⟨str "AB12", [], none, none⟩, ⟨str "AB13", [], none, none⟩,
          ⟨str "AB14", [], none, none⟩, ⟨str "AB1", [], none, none⟩]
        (str "ab1") ≠ [⟨str "AB1", [], none, none⟩] ∧
      searchProducts
        [⟨str "AB12", [], none, none⟩, ⟨str "AB13", [], none, none⟩,
          ⟨str "AB14", [], none, none⟩, ⟨str "AB1", [], none, none⟩]
        (str "ab1") = [⟨str "AB12", [], none, none⟩] :=
  ⟨by decide, by decide, by decide, by decide⟩

theorem startsW_refl : ∀ s : Str, startsW s s = true
  | [] => rfl
  | c :: t => by simp [startsW, startsW_refl t]

theorem hasSub_of_startsW : ∀ {s p : Str}, startsW s p = true →
    hasSub s p = true
  | [], _, h => h
  | _ :: _, _, h => by simp [hasSub, h]

theorem hasSub_refl (s : Str) : hasSub s s = true :=
  hasSub_of_startsW (startsW_refl s)

/-- Phase 1 returns `[p]` when `p` is the first product whose normalized
code contains the query and its code is exactly the query. -/
theorem codeScan_exact (q : Str) {tokens : List Str} {intent : Intent}
    (p : Product) (hp : normalizeL p.code = q) :
    ∀ (pre post : List Product) (acc : List SC),
      (∀ x ∈ pre, hasSub (normalizeL x.code) q = false) →
      codeScan q tokens intent (pre ++ p :: post) acc = .inl p
  | [], post, acc, _ => by
    simp only [List.nil_append, codeScan]
    rw [if_pos hp]
  | x :: pre, post, acc, hpre => by
    have hx := hpre x (by simp)
    have hneq : ¬(normalizeL x.code = q) := by
      intro hcontra
      rw [hcontra, hasSub_refl] at hx
      cases hx
    have hstart : startsW (normalizeL x.code) q = false := by
      cases hs : startsW (normalizeL x.code) q
      · rfl
      · rw [hasSub_of_startsW hs] at hx
        cases hx
    simp only [List.cons_append, codeScan]
    rw [if_neg hneq, if_neg (by simp [hstart, hx])]
    exact codeScan_exact q p hp pre post acc
      (fun y hy => hpre y (by simp [hy]))

/-- Each synonym-expansion step only appends to the variant list. -/
theorem foldl_expand_append (n : Str) :
    ∀ (L : List (Str × List Str)) (init : List Str),
      ∃ tail, L.foldl (fun exp e =>
        (if hasSub n e.1 then
          exp ++ e.2.map (fun syn => replaceFirst e.1 syn n)
        else exp) ++
          (e.2.filter (fun syn => hasSub n syn)).map
            (fun syn => replaceFirst syn e.1 n)) init = init ++ tail
  | [], init => ⟨[], by simp⟩
  | e :: L, init => by
    simp only [List.foldl_cons]
    by_cases h : hasSub n e.1 = true
    · rw [if_pos h]
      obtain ⟨tail, htail⟩ := foldl_expand_append n L
        (init ++ e.2.map (fun syn => replaceFirst e.1 syn n) ++
          (e.2.filter (fun syn => hasSub n syn)).map
            (fun syn => replaceFirst syn e.1 n))
      exact ⟨e.2.map (fun syn => replaceFirst e.1 syn n) ++
        (e.2.filter (fun syn => hasSub n syn)).map
          (fun syn => replaceFirst syn e.1 n) ++ tail,
        by rw [htail]; simp [List.append_assoc]⟩
    · rw [if_neg h]
      obtain ⟨tail, htail⟩ := foldl_expand_append n L
        (init ++ (e.2.filter (fun syn => hasSub n syn)).map
          (fun syn => replaceFirst syn e.1 n))
      exact ⟨(e.2.filter (fun syn => hasSub n syn)).map
          (fun syn => replaceFirst syn e.1 n) ++ tail,
        by rw [htail]; simp [List.append_assoc]⟩

/-- The variant list starts with the (auto-corrected) query itself. -/
theorem expandWithSynonyms_head (x : Str) :
    ∃ rest, expandWithSynonyms x = x :: rest := by
  simp only [expandWithSynonyms]
  obtain ⟨tail, htail⟩ := foldl_expand_append (normalizeL x) SYNONYMS [x]
  rw [htail]
  exact ⟨(dedupFirst tail).filter (fun b => !(b == x)), rfl⟩

/-- C1 amended: if the normalized query is nonempty and the first
product of the catalog whose normalized code contains the
auto-corrected normalized query as a substring has its normalized code
exactly equal to that auto-corrected query, then `searchProducts`
returns exactly that one product. -/
theorem searchProducts_exact_code_amended
    (pre : List Product) (p : Product) (post : List Product) (raw : Str)
    (hq : normalizeL raw ≠ [])
    (hpre : ∀ x ∈ pre,
      hasSub (normalizeL x.code) (autoCorrect (normalizeL raw)) = false)
    (hp : normalizeL p.code = autoCorrect (normalizeL raw)) :
    searchProducts (pre ++ p :: post) raw = [p] := by
  simp only [searchProducts]
  rw [if_neg hq]
  obtain ⟨rest, hexp⟩ := expandWithSynonyms_head (autoCorrect (normalizeL raw))
  rw [hexp]
  simp only [searchWithFallback, variantLoop]
  rw [codeScan_exact (autoCorrect (normalizeL raw)) p hp pre post [] hpre]

/-- C1 amended, witnessed on the catalog `[zz, A1]` with query `"a1"`:
no earlier code contains `"a1"`, and `A1` normalizes to it. -/
theorem searchProducts_exact_code_amended_witness :
    searchProducts [⟨str "zz", [], none, none⟩, ⟨str "A1", [], none, none⟩]
      (str "a1") = [⟨str "A1", [], none, none⟩] :=
  searchProducts_exact_code_amended [⟨str "zz", [], none, none⟩]
    ⟨str "A1", [], none, none⟩ [] (str "a1")
    (by decide) (by decide) (by decide)

/-! ## C2 and C10: invariants of the result accumulator -/

theorem hasCode_false {acc : List SC} {c : Str}
    (h : hasCode acc c = false) : ∀ r ∈ acc, r.1.code ≠ c := by
  intro r hr hEq
  simp only [hasCode, List.any_eq_false] at h
  exact absurd (by simp [hEq]) (h r hr)

/-- Appending a product whose code is not yet present preserves
pairwise-distinct codes. -/
theorem pairwise_push {acc : List SC} {p : Product} (s : ℤ)
    (hnd : acc.Pairwise (fun a b => a.1.code ≠ b.1.code))
    (h : hasCode acc p.code = false) :
    (acc ++ [(p, s)]).Pairwise (fun a b => a.1.code ≠ b.1.code) := by
  rw [List.pairwise_append]
  refine ⟨hnd, List.pairwise_singleton _ _, ?_⟩
  intro a ha b hb
  simp only [List.mem_singleton] at hb
  subst hb
  exact hasCode_false h a ha

theorem mem_push {r x : SC} {acc : List SC} (h : r ∈ acc ++ [x]) :
    r ∈ acc ∨ r = x := by
  rcases List.mem_append.mp h with h' | h'
  · exact Or.inl h'
  · simp only [List.mem_singleton] at h'
    exact Or.inr h'

/-- FASE 1 preserves distinct codes, only accumulates scanned products,
and exact hits come from the scanned list. -/
theorem codeScan_inv (q : Str) (tokens : List Str) (intent : Intent) :
    ∀ (ps : List Product) (acc : List SC),
      acc.Pairwise (fun a b => a.1.code ≠ b.1.code) →
      (∀ acc', codeScan q tokens intent ps acc = .inr acc' →
        acc'.Pairwise (fun a b => a.1.code ≠ b.1.code) ∧
          ∀ r ∈ acc', r ∈ acc ∨ r.1 ∈ ps) ∧
      ∀ p, codeScan q tokens intent ps acc = .inl p → p ∈ ps
  | [], acc, hnd => by
    constructor
    · intro acc' h
      simp only [codeScan] at h
      injection h with h
      subst h
      exact ⟨hnd, fun r hr => Or.inl hr⟩
    · intro p h
      simp only [codeScan] at h
      simp at h
  | p :: rest, acc, hnd => by
    by_cases h1 : normalizeL p.code = q
    · have hstep : codeScan q tokens intent (p :: rest) acc = .inl p := by
        simp only [codeScan]
        rw [if_pos h1]
      rw [hstep]
      constructor
      · intro acc' h
        simp at h
      · intro p' h
        injection h with h
        subst h
        simp
    · by_cases h2 : (startsW (normalizeL p.code) q ||
          hasSub (normalizeL p.code) q) = true
      · by_cases hdup : hasCode acc p.code = true
        · by_cases hbrk : 3 ≤ acc.length ∧
              (25000 : ℤ) ≤ scoreProduct p q tokens intent
          · have hstep : codeScan q tokens intent (p :: rest) acc =
                .inr acc := by
              simp only [codeScan]
              rw [if_neg h1, if_pos h2, if_pos hdup, if_pos hbrk]
            rw [hstep]
            constructor
            · intro acc' h
              injection h with h
              subst h
              exact ⟨hnd, fun r hr => Or.inl hr⟩
            · intro p' h
              simp at h
          · have hstep : codeScan q tokens intent (p :: rest) acc =
                codeScan q tokens intent rest acc := by
              simp only [codeScan]
              rw [if_neg h1, if_pos h2, if_pos hdup, if_neg hbrk]
            rw [hstep]
            obtain ⟨ha, hb⟩ := codeScan_inv q tokens intent rest acc hnd
            constructor
            · intro acc' h
              obtain ⟨g1, g2⟩ := ha acc' h
              exact ⟨g1, fun r hr =>
                (g2 r hr).imp id (List.mem_cons_of_mem _)⟩
            · intro p' h
              exact List.mem_cons_of_mem _ (hb p' h)
        · have hdup' : hasCode acc p.code = false := by simpa using hdup
          have hnd2 := pairwise_push
            (scoreProduct p q tokens intent) hnd hdup'
          by_cases hbrk : 3 ≤ (acc ++ [(p, scoreProduct p q tokens intent)]).length ∧
              (25000 : ℤ) ≤ scoreProduct p q tokens intent
          · have hstep : codeScan q tokens intent (p :: rest) acc =
                .inr (acc ++ [(p, scoreProduct p q tokens intent)]) := by
              simp only [codeScan]
              rw [if_neg h1, if_pos h2, if_neg hdup, if_pos hbrk]
            rw [hstep]
            constructor
            · intro acc' h
              injection h with h
              subst h
              refine ⟨hnd2, ?_⟩
              intro r hr
              rcases mem_push hr with h' | h'
              · exact Or.inl h'
              · subst h'
                exact Or.inr (by simp)
            · intro p' h
              simp at h
          · have hstep : codeScan q tokens intent (p :: rest) acc =
                codeScan q tokens intent rest
                  (acc ++ [(p, scoreProduct p q tokens intent)]) := by
              simp only [codeScan]
              rw [if_neg h1, if_pos h2, if_neg hdup, if_neg hbrk]
            rw [hstep]
            obtain ⟨ha, hb⟩ := codeScan_inv q tokens intent rest _ hnd2
            constructor
            · intro acc' h
              obtain ⟨g1, g2⟩ := ha acc' h
              refine ⟨g1, ?_⟩
              intro r hr
              rcases g2 r hr with h' | h'
              · rcases mem_push h' with h'' | h''
                · exact Or.inl h''
                · subst h''
                  exact Or.inr (by simp)
              · exact Or.inr (List.mem_cons_of_mem _ h')
            · intro p' h
              exact List.mem_cons_of_mem _ (hb p' h)
      · have hstep : codeScan q tokens intent (p :: rest) acc =
            codeScan q tokens intent rest acc := by
          simp only [codeScan]
          rw [if_neg h1, if_neg h2]
        rw [hstep]
        obtain ⟨ha, hb⟩ := codeScan_inv q tokens intent rest acc hnd
        constructor
        · intro acc' h
          obtain ⟨g1, g2⟩ := ha acc' h
          exact ⟨g1, fun r hr => (g2 r hr).imp id (List.mem_cons_of_mem _)⟩
        · intro p' h
          exact List.mem_cons_of_mem _ (hb p' h)

/-- FASE 2 preserves distinct codes and only accumulates scanned
products. -/
theorem nameScan_inv (q : Str) (tokens : List Str) (intent : Intent) :
    ∀ (ps : List Product) (acc : List SC),
      acc.Pairwise (fun a b => a.1.code ≠ b.1.code) →
      (nameScan q tokens intent ps acc).Pairwise
          (fun a b => a.1.code ≠ b.1.code) ∧
        ∀ r ∈ nameScan q tokens intent ps acc, r ∈ acc ∨ r.1 ∈ ps
  | [], acc, hnd => ⟨hnd, fun r hr => Or.inl hr⟩
  | p :: rest, acc, hnd => by
    by_cases hdup : hasCode acc p.code = true
    · have hstep : nameScan q tokens intent (p :: rest) acc =
          nameScan q tokens intent rest acc := by
        simp only [nameScan]
        rw [if_pos hdup]
      rw [hstep]
      obtain ⟨g1, g2⟩ := nameScan_inv q tokens intent rest acc hnd
      exact ⟨g1, fun r hr => (g2 r hr).imp id (List.mem_cons_of_mem _)⟩
    · have hdup' : hasCode acc p.code = false := by simpa using hdup
      by_cases hm : (hasSub (normalizeL p.name) q ||
          fuzzyMatch (normalizeL p.name) q) = true
      · by_cases hsc : (0 : ℤ) < scoreProduct p q tokens intent
        · have hnd2 := pairwise_push
            (scoreProduct p q tokens intent) hnd hdup'
          by_cases hlen : 10 ≤ (acc ++ [(p, scoreProduct p q tokens intent)]).length
          · have hstep : nameScan q tokens intent (p :: rest) acc =
                acc ++ [(p, scoreProduct p q tokens intent)] := by
              simp only [nameScan]
              rw [if_neg hdup, if_pos hm, if_pos hsc, if_pos hlen]
            rw [hstep]
            refine ⟨hnd2, ?_⟩
            intro r hr
            rcases mem_push hr with h' | h'
            · exact Or.inl h'
            · subst h'
              exact Or.inr (by simp)
          · have hstep : nameScan q tokens intent (p :: rest) acc =
                nameScan q tokens intent rest
                  (acc ++ [(p, scoreProduct p q tokens intent)]) := by
              simp only [nameScan]
              rw [if_neg hdup, if_pos hm, if_pos hsc, if_neg hlen]
            rw [hstep]
            obtain ⟨g1, g2⟩ := nameScan_inv q tokens intent rest _ hnd2
            refine ⟨g1, ?_⟩
            intro r hr
            rcases g2 r hr with h' | h'
            · rcases mem_push h' with h'' | h''
              · exact Or.inl h''
              · subst h''
                exact Or.inr (by simp)
            · exact Or.inr (List.mem_cons_of_mem _ h')
        · by_cases hlen : 10 ≤ acc.length
          · have hstep : nameScan q tokens intent (p :: rest) acc = acc := by
              simp only [nameScan]
              rw [if_neg hdup, if_pos hm, if_neg hsc, if_pos hlen]
            rw [hstep]
            exact ⟨hnd, fun r hr => Or.inl hr⟩
          · have hstep : nameScan q tokens intent (p :: rest) acc =
                nameScan q tokens intent rest acc := by
              simp only [nameScan]
              rw [if_neg hdup, if_pos hm, if_neg hsc, if_neg hlen]
            rw [hstep]
            obtain ⟨g1, g2⟩ := nameScan_inv q tokens intent rest acc hnd
            exact ⟨g1, fun r hr => (g2 r hr).imp id (List.mem_cons_of_mem _)⟩
      · have hstep : nameScan q tokens intent (p :: rest) acc =
            nameScan q tokens intent rest acc := by
          simp only [nameScan]
          rw [if_neg hdup, if_neg hm]
        rw [hstep]
        obtain ⟨g1, g2⟩ := nameScan_inv q tokens intent rest acc hnd
        exact ⟨g1, fun r hr => (g2 r hr).imp id (List.mem_cons_of_mem _)⟩

/-- FASE 3 preserves distinct codes and only accumulates scanned
products. -/
theorem broadScan_inv (q0 : Str) (tokens : List Str) (intent : Intent) :
    ∀ (ps : List Product) (acc : List SC),
      acc.Pairwise (fun a b => a.1.code ≠ b.1.code) →
      (broadScan q0 tokens intent ps acc).Pairwise
          (fun a b => a.1.code ≠ b.1.code) ∧
        ∀ r ∈ broadScan q0 tokens intent ps acc, r ∈ acc ∨ r.1 ∈ ps
  | [], acc, hnd => ⟨hnd, fun r hr => Or.inl hr⟩
  | p :: rest, acc, hnd => by
    by_cases hdup : hasCode acc p.code = true
    · have hstep : broadScan q0 tokens intent (p :: rest) acc =
          broadScan q0 tokens intent rest acc := by
        simp only [broadScan]
        rw [if_pos hdup]
      rw [hstep]
      obtain ⟨g1, g2⟩ := broadScan_inv q0 tokens intent rest acc hnd
      exact ⟨g1, fun r hr => (g2 r hr).imp id (List.mem_cons_of_mem _)⟩
    · have hdup' : hasCode acc p.code = false := by simpa using hdup
      by_cases hsc : (3000 : ℤ) ≤ scoreProduct p q0 tokens intent
      · have hnd2 := pairwise_push
          (scoreProduct p q0 tokens intent) hnd hdup'
        by_cases hlen : 15 ≤ (acc ++ [(p, scoreProduct p q0 tokens intent)]).length
        · have hstep : broadScan q0 tokens intent (p :: rest) acc =
              acc ++ [(p, scoreProduct p q0 tokens intent)] := by
            simp only [broadScan]
            rw [if_neg hdup, if_pos hsc, if_pos hlen]
          rw [hstep]
          refine ⟨hnd2, ?_⟩
          intro r hr
          rcases mem_push hr with h' | h'
          · exact Or.inl h'
          · subst h'
            exact Or.inr (by simp)
        · have hstep : broadScan q0 tokens intent (p :: rest) acc =
              broadScan q0 tokens intent rest
                (acc ++ [(p, scoreProduct p q0 tokens intent)]) := by
            simp only [broadScan]
            rw [if_neg hdup, if_pos hsc, if_neg hlen]
          rw [hstep]
          obtain ⟨g1, g2⟩ := broadScan_inv q0 tokens intent rest _ hnd2
          refine ⟨g1, ?_⟩
          intro r hr
          rcases g2 r hr with h' | h'
          · rcases mem_push h' with h'' | h''
            · exact Or.inl h''
            · subst h''
              exact Or.inr (by simp)
          · exact Or.inr (List.mem_cons_of_mem _ h')
      · by_cases hlen : 15 ≤ acc.length
        · have hstep : broadScan q0 tokens intent (p :: rest) acc = acc := by
            simp only [broadScan]
            rw [if_neg hdup, if_neg hsc, if_pos hlen]
          rw [hstep]
          exact ⟨hnd, fun r hr => Or.inl hr⟩
        · have hstep : broadScan q0 tokens intent (p :: rest) acc =
              broadScan q0 tokens intent rest acc := by
            simp only [broadScan]
            rw [if_neg hdup, if_neg hsc, if_neg hlen]
          rw [hstep]
          obtain ⟨g1, g2⟩ := broadScan_inv q0 tokens intent rest acc hnd
          exact ⟨g1, fun r hr => (g2 r hr).imp id (List.mem_cons_of_mem _)⟩

/-- FASE 4 preserves distinct codes and only accumulates scanned
products. -/
theorem catScan_inv (q0 : Str) (tokens : List Str) (intent : Intent) :
    ∀ (ps : List Product) (acc : List SC),
      acc.Pairwise (fun a b => a.1.code ≠ b.1.code) →
      (catScan q0 tokens intent ps acc).Pairwise
          (fun a b => a.1.code ≠ b.1.code) ∧
        ∀ r ∈ catScan q0 tokens intent ps acc, r ∈ acc ∨ r.1 ∈ ps
  | [], acc, hnd => ⟨hnd, fun r hr => Or.inl hr⟩
  | p :: rest, acc, hnd => by
    by_cases hdup : hasCode acc p.code = true
    · have hstep : catScan q0 tokens intent (p :: rest) acc =
          catScan q0 tokens intent rest acc := by
        simp only [catScan]
        rw [if_pos hdup]
      rw [hstep]
      obtain ⟨g1, g2⟩ := catScan_inv q0 tokens intent rest acc hnd
      exact ⟨g1, fun r hr => (g2 r hr).imp id (List.mem_cons_of_mem _)⟩
    · have hdup' : hasCode acc p.code = false := by simpa using hdup
      have hacc2 : ∀ acc2 : List SC,
          acc2 = (if hasSub (normalizeL (p.category.getD [])) q0 = true then
            if (0 : ℤ) < scoreProduct p q0 tokens intent then
              acc ++ [(p, scoreProduct p q0 tokens intent)]
            else acc
          else acc) →
          acc2.Pairwise (fun a b => a.1.code ≠ b.1.code) ∧
            ∀ r ∈ acc2, r ∈ acc ∨ r = (p, scoreProduct p q0 tokens intent) := by
        intro acc2 hdef
        by_cases hc : hasSub (normalizeL (p.category.getD [])) q0 = true
        · rw [if_pos hc] at hdef
          by_cases hsc : (0 : ℤ) < scoreProduct p q0 tokens intent
          · rw [if_pos hsc] at hdef
            subst hdef
            exact ⟨pairwise_push _ hnd hdup', fun r hr => mem_push hr⟩
          · rw [if_neg hsc] at hdef
            subst hdef
            exact ⟨hnd, fun r hr => Or.inl hr⟩
        · rw [if_neg hc] at hdef
          subst hdef
          exact ⟨hnd, fun r hr => Or.inl hr⟩
      obtain ⟨hnd2, hmem2⟩ := hacc2 _ rfl
      by_cases hlen : 10 ≤ (if hasSub (normalizeL (p.category.getD [])) q0 = true then
          if (0 : ℤ) < scoreProduct p q0 tokens intent then
            acc ++ [(p, scoreProduct p q0 tokens intent)]
          else acc
        else acc).length
      · have hstep : catScan q0 tokens intent (p :: rest) acc =
            (if hasSub (normalizeL (p.category.getD [])) q0 = true then
              if (0 : ℤ) < scoreProduct p q0 tokens intent then
                acc ++ [(p, scoreProduct p q0 tokens intent)]
              else acc
            else acc) := by
          simp only [catScan]
          rw [if_neg hdup, if_pos hlen]
        rw [hstep]
        refine ⟨hnd2, ?_⟩
        intro r hr
        rcases hmem2 r hr with h' | h'
        · exact Or.inl h'
        · subst h'
          exact Or.inr (by simp)
      · have hstep : catScan q0 tokens intent (p :: rest) acc =
            catScan q0 tokens intent rest
              (if hasSub (normalizeL (p.category.getD [])) q0 = true then
                if (0 : ℤ) < scoreProduct p q0 tokens intent then
                  acc ++ [(p, scoreProduct p q0 tokens intent)]
                else acc
              else acc) := by
          simp only [catScan]
          rw [if_neg hdup, if_neg hlen]
        rw [hstep]
        obtain ⟨g1, g2⟩ := catScan_inv q0 tokens intent rest _ hnd2
        refine ⟨g1, ?_⟩
        intro r hr
        rcases g2 r hr with h' | h'
        · rcases hmem2 r h' with h'' | h''
          · exact Or.inl h''
          · subst h''
            exact Or.inr (by simp)
        · exact Or.inr (List.mem_cons_of_mem _ h')

/-- FASE 5 preserves distinct codes and only accumulates scanned
products. -/
theorem descScan_inv (q0 : Str) (tokens : List Str) (intent : Intent) :
    ∀ (ps : List Product) (acc : List SC),
      acc.Pairwise (fun a b => a.1.code ≠ b.1.code) →
      (descScan q0 tokens intent ps acc).Pairwise
          (fun a b => a.1.code ≠ b.1.code) ∧
        ∀ r ∈ descScan q0 tokens intent ps acc, r ∈ acc ∨ r.1 ∈ ps
  | [], acc, hnd => ⟨hnd, fun r hr => Or.inl hr⟩
  | p :: rest, acc, hnd => by
    by_cases hdup : hasCode acc p.code = true
    · have hstep : descScan q0 tokens intent (p :: rest) acc =
          descScan q0 tokens intent rest acc := by
        simp only [descScan]
        rw [if_pos hdup]
      rw [hstep]
      obtain ⟨g1, g2⟩ := descScan_inv q0 tokens intent rest acc hnd
      exact ⟨g1, fun r hr => (g2 r hr).imp id (List.mem_cons_of_mem _)⟩
    · have hdup' : hasCode acc p.code = false := by simpa using hdup
      have hacc2 : ∀ acc2 : List SC,
          acc2 = (if hasSub (normalizeL (p.description.getD [])) q0 = true then
            if (0 : ℤ) < scoreProduct p q0 tokens intent then
              acc ++ [(p, scoreProduct p q0 tokens intent)]
            else acc
          else acc) →
          acc2.Pairwise (fun a b => a.1.code ≠ b.1.code) ∧
            ∀ r ∈ acc2, r ∈ acc ∨ r = (p, scoreProduct p q0 tokens intent) := by
        intro acc2 hdef
        by_cases hc : hasSub (normalizeL (p.description.getD [])) q0 = true
        · rw [if_pos hc] at hdef
          by_cases hsc : (0 : ℤ) < scoreProduct p q0 tokens intent
          · rw [if_pos hsc] at hdef
            subst hdef
            exact ⟨pairwise_push _ hnd hdup', fun r hr => mem_push hr⟩
          · rw [if_neg hsc] at hdef
            subst hdef
            exact ⟨hnd, fun r hr => Or.inl hr⟩
        · rw [if_neg hc] at hdef
          subst hdef
          exact ⟨hnd, fun r hr => Or.inl hr⟩
      obtain ⟨hnd2, hmem2⟩ := hacc2 _ rfl
      by_cases hlen : 10 ≤ (if hasSub (normalizeL (p.description.getD [])) q0 = true then
          if (0 : ℤ) < scoreProduct p q0 tokens intent then
            acc ++ [(p, scoreProduct p q0 tokens intent)]
          else acc
        else acc).length
      · have hstep : descScan q0 tokens intent (p :: rest) acc =
            (if hasSub (normalizeL (p.description.getD [])) q0 = true then
              if (0 : ℤ) < scoreProduct p q0 tokens intent then
                acc ++ [(p, scoreProduct p q0 tokens intent)]
              else acc
            else acc) := by
          simp only [descScan]
          rw [if_neg hdup, if_pos hlen]
        rw [hstep]
        refine ⟨hnd2, ?_⟩
        intro r hr
        rcases hmem2 r hr with h' | h'
        · exact Or.inl h'
        · subst h'
          exact Or.inr (by simp)
      · have hstep : descScan q0 tokens intent (p :: rest) acc =
            descScan q0 tokens intent rest
              (if hasSub (normalizeL (p.description.getD [])) q0 = true then
                if (0 : ℤ) < scoreProduct p q0 tokens intent then
                  acc ++ [(p, scoreProduct p q0 tokens intent)]
                else acc
              else acc) := by
          simp only [descScan]
          rw [if_neg hdup, if_neg hlen]
        rw [hstep]
        obtain ⟨g1, g2⟩ := descScan_inv q0 tokens intent rest _ hnd2
        refine ⟨g1, ?_⟩
        intro r hr
        rcases g2 r hr with h' | h'
        · rcases hmem2 r h' with h'' | h''
          · exact Or.inl h''
          · subst h''
            exact Or.inr (by simp)
        · exact Or.inr (List.mem_cons_of_mem _ h')

/-- The FASE 6 inner loop preserves distinct codes and only accumulates
scanned products. -/
theorem tokenInner_inv (t : Str) :
    ∀ (ps : List Product) (acc : List SC),
      acc.Pairwise (fun a b => a.1.code ≠ b.1.code) →
      (tokenInner t ps acc).Pairwise (fun a b => a.1.code ≠ b.1.code) ∧
        ∀ r ∈ tokenInner t ps acc, r ∈ acc ∨ r.1 ∈ ps
  | [], acc, hnd => ⟨hnd, fun r hr => Or.inl hr⟩
  | p :: rest, acc, hnd => by
    by_cases hdup : hasCode acc p.code = true
    · have hstep : tokenInner t (p :: rest) acc = tokenInner t rest acc := by
        simp only [tokenInner]
        rw [if_pos hdup]
      rw [hstep]
      obtain ⟨g1, g2⟩ := tokenInner_inv t rest acc hnd
      exact ⟨g1, fun r hr => (g2 r hr).imp id (List.mem_cons_of_mem _)⟩
    · have hdup' : hasCode acc p.code = false := by simpa using hdup
      have hacc2 : ∀ acc2 : List SC,
          acc2 = (if (hasSub (normalizeL p.code) t || hasSub (normalizeL p.name) t ||
              hasSub (normalizeL (p.category.getD [])) t) = true then
            acc ++ [(p, (1000 : ℤ))]
          else acc) →
          acc2.Pairwise (fun a b => a.1.code ≠ b.1.code) ∧
            ∀ r ∈ acc2, r ∈ acc ∨ r = (p, (1000 : ℤ)) := by
        intro acc2 hdef
        by_cases hc : (hasSub (normalizeL p.code) t || hasSub (normalizeL p.name) t ||
            hasSub (normalizeL (p.category.getD [])) t) = true
        · rw [if_pos hc] at hdef
          subst hdef
          exact ⟨pairwise_push _ hnd hdup', fun r hr => mem_push hr⟩
        · rw [if_neg hc] at hdef
          subst hdef
          exact ⟨hnd, fun r hr => Or.inl hr⟩
      obtain ⟨hnd2, hmem2⟩ := hacc2 _ rfl
      by_cases hlen : 5 ≤ (if (hasSub (normalizeL p.code) t || hasSub (normalizeL p.name) t ||
          hasSub (normalizeL (p.category.getD [])) t) = true then
          acc ++ [(p, (1000 : ℤ))]
        else acc).length
      · have hstep : tokenInner t (p :: rest) acc =
            (if (hasSub (normalizeL p.code) t || hasSub (normalizeL p.name) t ||
                hasSub (normalizeL (p.category.getD [])) t) = true then
              acc ++ [(p, (1000 : ℤ))]
            else acc) := by
          simp only [tokenInner]
          rw [if_neg hdup, if_pos hlen]
        rw [hstep]
        refine ⟨hnd2, ?_⟩
        intro r hr
        rcases hmem2 r hr with h' | h'
        · exact Or.inl h'
        · subst h'
          exact Or.inr (by simp)
      · have hstep : tokenInner t (p :: rest) acc =
            tokenInner t rest
              (if (hasSub (normalizeL p.code) t || hasSub (normalizeL p.name) t ||
                  hasSub (normalizeL (p.category.getD [])) t) = true then
                acc ++ [(p, (1000 : ℤ))]
              else acc) := by
          simp only [tokenInner]
          rw [if_neg hdup, if_neg hlen]
        rw [hstep]
        obtain ⟨g1, g2⟩ := tokenInner_inv t rest _ hnd2
        refine ⟨g1, ?_⟩
        intro r hr
        rcases g2 r hr with h' | h'
        · rcases hmem2 r h' with h'' | h''
          · exact Or.inl h''
          · subst h''
            exact Or.inr (by simp)
        · exact Or.inr (List.mem_cons_of_mem _ h')

/-- The FASE 6 outer loop preserves distinct codes and only accumulates
scanned products. -/
theorem tokenScan_inv (products : List Product) :
    ∀ (ts : List Str) (acc : List SC),
      acc.Pairwise (fun a b => a.1.code ≠ b.1.code) →
      (tokenScan products ts acc).Pairwise (fun a b => a.1.code ≠ b.1.code) ∧
        ∀ r ∈ tokenScan products ts acc, r ∈ acc ∨ r.1 ∈ products
  | [], acc, hnd => ⟨hnd, fun r hr => Or.inl hr⟩
  | t :: ts, acc, hnd => by
    by_cases hlen : t.length < 3
    · have hstep : tokenScan products (t :: ts) acc =
          tokenScan products ts acc := by
        simp only [tokenScan]
        rw [if_pos hlen]
      rw [hstep]
      exact tokenScan_inv products ts acc hnd
    · obtain ⟨hnd2, hmem2⟩ := tokenInner_inv t products acc hnd
      by_cases h0 : 0 < (tokenInner t products acc).length
      · have hstep : tokenScan products (t :: ts) acc =
            tokenInner t products acc := by
          simp only [tokenScan]
          rw [if_neg hlen, if_pos h0]
        rw [hstep]
        exact ⟨hnd2, hmem2⟩
      · have hstep : tokenScan products (t :: ts) acc =
            tokenScan products ts (tokenInner t products acc) := by
          simp only [tokenScan]
          rw [if_neg hlen, if_neg h0]
        rw [hstep]
        obtain ⟨g1, g2⟩ := tokenScan_inv products ts _ hnd2
        refine ⟨g1, ?_⟩
        intro r hr
        rcases g2 r hr with h' | h'
        · exact hmem2 r h'
        · exact Or.inr h'

/-- The per-variant loop: accumulated state keeps distinct codes and
only catalog products; early returns carry at most one product, always
from the accumulator or the catalog. -/
theorem variantLoop_inv (products : List Product) (tokens : List Str)
    (intent : Intent) :
    ∀ (qs : List Str) (acc : List SC),
      acc.Pairwise (fun a b => a.1.code ≠ b.1.code) →
      (∀ acc', variantLoop products tokens intent qs acc = .inr acc' →
        acc'.Pairwise (fun a b => a.1.code ≠ b.1.code) ∧
          ∀ r ∈ acc', r ∈ acc ∨ r.1 ∈ products) ∧
      ∀ out, variantLoop products tokens intent qs acc = .inl out →
        out.length ≤ 1 ∧ ∀ x ∈ out, (∃ r ∈ acc, r.1 = x) ∨ x ∈ products
  | [], acc, hnd => by
    constructor
    · intro acc' h
      simp only [variantLoop] at h
      injection h with h
      subst h
      exact ⟨hnd, fun r hr => Or.inl hr⟩
    · intro out h
      simp only [variantLoop] at h
      simp at h
  | q :: qs, acc, hnd => by
    have hB : ∀ acc2 : List SC,
        acc2.Pairwise (fun a b => a.1.code ≠ b.1.code) →
        (∀ r ∈ acc2, r ∈ acc ∨ r.1 ∈ products) →
        (∀ acc', (if 5 ≤ acc2.length then
            (.inr acc2 : Sum (List Product) (List SC))
          else variantLoop products tokens intent qs acc2) = .inr acc' →
          acc'.Pairwise (fun a b => a.1.code ≠ b.1.code) ∧
            ∀ r ∈ acc', r ∈ acc ∨ r.1 ∈ products) ∧
        ∀ out, (if 5 ≤ acc2.length then
            (.inr acc2 : Sum (List Product) (List SC))
          else variantLoop products tokens intent qs acc2) = .inl out →
          out.length ≤ 1 ∧ ∀ x ∈ out, (∃ r ∈ acc, r.1 = x) ∨ x ∈ products := by
      intro acc2 hnd2 hmem2
      by_cases h5 : 5 ≤ acc2.length
      · rw [if_pos h5]
        constructor
        · intro acc' h
          injection h with h
          subst h
          exact ⟨hnd2, hmem2⟩
        · intro out h
          simp at h
      · rw [if_neg h5]
        obtain ⟨hA, hC⟩ := variantLoop_inv products tokens intent qs acc2 hnd2
        constructor
        · intro acc' h
          obtain ⟨g1, g2⟩ := hA acc' h
          exact ⟨g1, fun r hr => (g2 r hr).elim (fun hh => hmem2 r hh) Or.inr⟩
        · intro out h
          obtain ⟨g1, g2⟩ := hC out h
          refine ⟨g1, fun x hx => ?_⟩
          rcases g2 x hx with ⟨r, hr, hrx⟩ | hh
          · rcases hmem2 r hr with hh' | hh'
            · exact Or.inl ⟨r, hh', hrx⟩
            · exact Or.inr (hrx ▸ hh')
          · exact Or.inr hh
    cases hcs : codeScan q tokens intent products acc with
    | inl p =>
      have hpmem := (codeScan_inv q tokens intent products acc hnd).2 p hcs
      have hstep : variantLoop products tokens intent (q :: qs) acc =
          .inl [p] := by
        simp only [variantLoop, hcs]
      rw [hstep]
      constructor
      · intro acc' h
        simp at h
      · intro out h
        injection h with h
        subst h
        refine ⟨by simp, fun x hx => ?_⟩
        simp only [List.mem_singleton] at hx
        subst hx
        exact Or.inr hpmem
    | inr acc1 =>
      obtain ⟨hnd1, hmem1⟩ :=
        (codeScan_inv q tokens intent products acc hnd).1 acc1 hcs
      have hcont : ∀ acc1' : List SC,
          acc1'.Pairwise (fun a b => a.1.code ≠ b.1.code) →
          (∀ r ∈ acc1', r ∈ acc ∨ r.1 ∈ products) →
          (∀ acc', (if 5 ≤ (if acc1'.length < 5 then
                nameScan q tokens intent products acc1' else acc1').length then
              (.inr (if acc1'.length < 5 then
                nameScan q tokens intent products acc1' else acc1') :
                Sum (List Product) (List SC))
            else variantLoop products tokens intent qs
              (if acc1'.length < 5 then
                nameScan q tokens intent products acc1' else acc1')) =
              .inr acc' →
            acc'.Pairwise (fun a b => a.1.code ≠ b.1.code) ∧
              ∀ r ∈ acc', r ∈ acc ∨ r.1 ∈ products) ∧
          ∀ out, (if 5 ≤ (if acc1'.length < 5 then
                nameScan q tokens intent products acc1' else acc1').length then
              (.inr (if acc1'.length < 5 then
                nameScan q tokens intent products acc1' else acc1') :
                Sum (List Product) (List SC))
            else variantLoop products tokens intent qs
              (if acc1'.length < 5 then
                nameScan q tokens intent products acc1' else acc1')) =
              .inl out →
            out.length ≤ 1 ∧
              ∀ x ∈ out, (∃ r ∈ acc, r.1 = x) ∨ x ∈ products := by
        intro acc1' hnd' hmem'
        have hacc2 : (if acc1'.length < 5 then
            nameScan q tokens intent products acc1' else acc1').Pairwise
              (fun a b => a.1.code ≠ b.1.code) ∧
            ∀ r ∈ (if acc1'.length < 5 then
              nameScan q tokens intent products acc1' else acc1'),
              r ∈ acc ∨ r.1 ∈ products := by
          by_cases hl5 : acc1'.length < 5
          · rw [if_pos hl5]
            obtain ⟨g1, g2⟩ := nameScan_inv q tokens intent products acc1' hnd'
            exact ⟨g1, fun r hr =>
              (g2 r hr).elim (fun hh => hmem' r hh) Or.inr⟩
          · rw [if_neg hl5]
            exact ⟨hnd', hmem'⟩
        exact hB _ hacc2.1 hacc2.2
      cases acc1 with
      | nil =>
        have hstep : variantLoop products tokens intent (q :: qs) acc =
            (if 5 ≤ (if ([] : List SC).length < 5 then
                nameScan q tokens intent products [] else []).length then
              (.inr (if ([] : List SC).length < 5 then
                nameScan q tokens intent products [] else []) :
                Sum (List Product) (List SC))
            else variantLoop products tokens intent qs
              (if ([] : List SC).length < 5 then
                nameScan q tokens intent products [] else [])) := by
          simp only [variantLoop, hcs, Bool.false_eq_true, if_false]
        rw [hstep]
        exact hcont [] hnd1 hmem1
      | cons r0 racc =>
        by_cases h50 : (50000 : ℤ) ≤ r0.2
        · have hstep : variantLoop products tokens intent (q :: qs) acc =
              .inl (((sortByScoreDesc (r0 :: racc)).take 1).map
                (fun r => r.1)) := by
            simp only [variantLoop, hcs]
            rw [if_pos (by simp [h50])]
          rw [hstep]
          constructor
          · intro acc' h
            simp at h
          · intro out h
            injection h with h
            subst h
            constructor
            · rw [List.length_map]
              exact List.length_take_le _ _
            · intro x hx
              rcases List.mem_map.mp hx with ⟨r, hr, rfl⟩
              have hr1 : r ∈ sortByScoreDesc (r0 :: racc) :=
                (List.take_sublist _ _).subset hr
              have hr2 : r ∈ r0 :: racc :=
                (List.perm_insertionSort _ _).subset hr1
              rcases hmem1 r hr2 with hh | hh
              · exact Or.inl ⟨r, hh, rfl⟩
              · exact Or.inr hh
        · have hstep : variantLoop products tokens intent (q :: qs) acc =
              (if 5 ≤ (if (r0 :: racc).length < 5 then
                  nameScan q tokens intent products (r0 :: racc)
                else r0 :: racc).length then
                (.inr (if (r0 :: racc).length < 5 then
                  nameScan q tokens intent products (r0 :: racc)
                else r0 :: racc) : Sum (List Product) (List SC))
              else variantLoop products tokens intent qs
                (if (r0 :: racc).length < 5 then
                  nameScan q tokens intent products (r0 :: racc)
                else r0 :: racc)) := by
            simp only [variantLoop, hcs]
            rw [if_neg (by simp [h50])]
          rw [hstep]
          exact hcont (r0 :: racc) hnd1 hmem1

/-- The final dedupe/sort/cap step: at most five results, distinct
codes, all drawn from the accumulated catalog products. -/
theorem final_output_inv (products : List Product) (r6 : List SC)
    (h : r6.Pairwise (fun a b => a.1.code ≠ b.1.code) ∧
      ∀ r ∈ r6, r.1 ∈ products) :
    (((sortByScoreDesc r6).take 5).map (fun r => r.1)).length ≤ 5 ∧
      (((sortByScoreDesc r6).take 5).map (fun r => r.1)).Pairwise
        (fun a b => a.code ≠ b.code) ∧
      ∀ x ∈ ((sortByScoreDesc r6).take 5).map (fun r => r.1),
        x ∈ products := by
  obtain ⟨h1, h2⟩ := h
  have hperm : List.Perm (sortByScoreDesc r6) r6 :=
    List.perm_insertionSort _ _
  have hsorted : (sortByScoreDesc r6).Pairwise
      (fun a b : SC => a.1.code ≠ b.1.code) :=
    (hperm.pairwise_iff (fun {_ _} hab => Ne.symm hab)).mpr h1
  have htake : ((sortByScoreDesc r6).take 5).Pairwise
      (fun a b : SC => a.1.code ≠ b.1.code) :=
    hsorted.sublist (List.take_sublist _ _)
  refine ⟨?_, ?_, ?_⟩
  · rw [List.length_map]
    exact List.length_take_le _ _
  · exact htake.map _ (fun a b hab => hab)
  · intro x hx
    rcases List.mem_map.mp hx with ⟨r, hr, rfl⟩
    exact h2 r (hperm.subset ((List.take_sublist _ _).subset hr))

/-- The fallback cascade returns at most five products, with distinct
codes, all from the catalog. -/
theorem searchWithFallback_inv (products : List Product)
    (queries : List Str) (intent : Intent) :
    (searchWithFallback products queries intent).length ≤ 5 ∧
      (searchWithFallback products queries intent).Pairwise
        (fun a b => a.code ≠ b.code) ∧
      ∀ x ∈ searchWithFallback products queries intent, x ∈ products := by
  have hphase : ∀ (c : Prop) (_ : Decidable c) (f : List SC → List SC)
      (_ : ∀ acc, acc.Pairwise (fun a b : SC => a.1.code ≠ b.1.code) →
        (f acc).Pairwise (fun a b => a.1.code ≠ b.1.code) ∧
          ∀ r ∈ f acc, r ∈ acc ∨ r.1 ∈ products)
      (acc : List SC),
      acc.Pairwise (fun a b => a.1.code ≠ b.1.code) →
      (∀ r ∈ acc, r.1 ∈ products) →
      ((if c then f acc else acc).Pairwise
          (fun a b => a.1.code ≠ b.1.code) ∧
        ∀ r ∈ (if c then f acc else acc), r.1 ∈ products) := by
    intro c hdec f hf acc h1 h2
    by_cases hc : c
    · rw [if_pos hc]
      obtain ⟨g1, g2⟩ := hf acc h1
      exact ⟨g1, fun r hr => (g2 r hr).elim (fun hh => h2 r hh) id⟩
    · rw [if_neg hc]
      exact ⟨h1, h2⟩
  simp only [searchWithFallback]
  set q0 := queries.headD [] with hq0
  set tokens := (splitSp q0).filter (fun t => !t.isEmpty) with htokens
  cases hvl : variantLoop products tokens intent queries [] with
  | inl out =>
    obtain ⟨hlen, hmem⟩ :=
      (variantLoop_inv products tokens intent queries []
        List.Pairwise.nil).2 out hvl
    refine ⟨le_trans hlen (by omega), ?_, ?_⟩
    · cases out with
      | nil => exact List.Pairwise.nil
      | cons x xs =>
        cases xs with
        | nil => exact List.pairwise_singleton _ _
        | cons y ys => simp at hlen
    · intro x hx
      rcases hmem x hx with ⟨r, hr, _⟩ | h
      · simp at hr
      · exact h
  | inr r2 =>
    obtain ⟨hnd2, hmem2⟩ :=
      (variantLoop_inv products tokens intent queries []
        List.Pairwise.nil).1 r2 hvl
    have h2 : r2.Pairwise (fun a b : SC => a.1.code ≠ b.1.code) ∧
        ∀ r ∈ r2, r.1 ∈ products :=
      ⟨hnd2, fun r hr => (hmem2 r hr).elim (fun hh => by simp at hh) id⟩
    set r3 := if r2.length < 5 ∧ 1 < tokens.length then
        broadScan q0 tokens intent products r2 else r2 with hr3
    set r4 := if r3.length < 3 then
        catScan q0 tokens intent products r3 else r3 with hr4
    set r5 := if r4.length < 2 ∧ 4 < q0.length then
        descScan q0 tokens intent products r4 else r4 with hr5
    set r6 := if r5.length = 0 ∧ 1 < tokens.length then
        tokenScan products tokens r5 else r5 with hr6
    have h3 : r3.Pairwise (fun a b : SC => a.1.code ≠ b.1.code) ∧
        ∀ r ∈ r3, r.1 ∈ products := by
      rw [hr3]
      exact hphase _ inferInstance _
        (fun acc ha => broadScan_inv q0 tokens intent products acc ha)
        r2 h2.1 h2.2
    have h4 : r4.Pairwise (fun a b : SC => a.1.code ≠ b.1.code) ∧
        ∀ r ∈ r4, r.1 ∈ products := by
      rw [hr4]
      exact hphase _ inferInstance _
        (fun acc ha => catScan_inv q0 tokens intent products acc ha)
        r3 h3.1 h3.2
    have h5 : r5.Pairwise (fun a b : SC => a.1.code ≠ b.1.code) ∧
        ∀ r ∈ r5, r.1 ∈ products := by
      rw [hr5]
      exact hphase _ inferInstance _
        (fun acc ha => descScan_inv q0 tokens intent products acc ha)
        r4 h4.1 h4.2
    have h6 : r6.Pairwise (fun a b : SC => a.1.code ≠ b.1.code) ∧
        ∀ r ∈ r6, r.1 ∈ products := by
      rw [hr6]
      exact hphase _ inferInstance _
        (fun acc ha => tokenScan_inv products tokens acc ha)
        r5 h5.1 h5.2
    exact final_output_inv products r6 ⟨h6.1, h6.2⟩

/-- C2: for every catalog and raw query, the result of `searchProducts`
has length at most 5 and no two of its elements share a `code`. -/
theorem searchProducts_capped_nodup (products : List Product) (raw : Str) :
    (searchProducts products raw).length ≤ 5 ∧
      (searchProducts products raw).Pairwise (fun a b => a.code ≠ b.code) := by
  simp only [searchProducts]
  by_cases h : normalizeL raw = []
  · rw [if_pos h]
    exact ⟨by simp, List.Pairwise.nil⟩
  · rw [if_neg h]
    obtain ⟨h1, h2, _⟩ := searchWithFallback_inv products
      (expandWithSynonyms (autoCorrect (normalizeL raw)))
      (classifyIntent (normalizeL raw))
    exact ⟨h1, h2⟩

/-- C10: every product in the output of `searchProducts` is an element
of the input catalog — no synthesized or modified records. -/
theorem searchProducts_mem_catalog (products : List Product) (raw : Str) :
    ∀ p ∈ searchProducts products raw, p ∈ products := by
  intro p hp
  simp only [searchProducts] at hp
  by_cases h : normalizeL raw = []
  · rw [if_pos h] at hp
    simp at hp
  · rw [if_neg h] at hp
    exact (searchWithFallback_inv products _ _).2.2 p hp

/-- C10 witness: the single-product catalog and an exactly-matching
query. -/
theorem searchProducts_mem_catalog_witness :
    (⟨str "A1", [], none, none⟩ : Product) ∈
      ([⟨str "A1", [], none, none⟩] : List Product) :=
  searchProducts_mem_catalog [⟨str "A1", [], none, none⟩] (str "a1")
    ⟨str "A1", [], none, none⟩ (by decide)
